import Mathlib

/-!
Verification of the tiptap unknown/invalid-content detection and recovery engine.

Shallow embedding of:
* `src/unnamed/part_000` — the tree validator (`checkForUnknownContent`,
  `getUnknownContent`), the placeholder synthesizer
  (`generatePlaceholderNodeExtensions`), and the entry points
  (`isContentInvalid`, `createPlaceholderExtensions`);
* `src/packages/core/src/helpers/createNodeFromContent.ts` — the recovery
  pipeline (`createNodeFromContent`, `getInvalidContent`,
  `checkForInvalidContent`, `transformers.remove`).

Modelling conventions:
* JavaScript objects are modelled as Lean structures; optional properties as
  `Option`; JS attribute maps are modelled by their key lists (only
  `Object.keys` is ever applied to them in the embedded code).
* JS `Set` (insertion ordered) is modelled by duplicate-free lists built with
  first-occurrence deduplication (`jsSetOf`).
* The external ProseMirror capabilities (`schema.nodeFromJSON`, the DOM
  parser, extension/schema resolution, the HTML probe's DOM traversal) are
  modelled as explicit environment records of total functions; throwing
  capabilities return `Except`.
* Array index segments in paths are stringified with `toString`, exactly as
  the source's template literals do.
-/

namespace Tiptap

/-- A mark reference inside `JSONContent.marks`: either a bare type-name
string or an object with a `type` and an optional attribute map (modelled by
its key list, the only part the embedded code reads). -/
inductive MarkRef where
  | str (name : String)
  | obj (type : String) (attrs : Option (List String))
deriving DecidableEq, Repr

/-- The `JSONContent` document tree: optional `type`, optional `attrs`
(modelled by its key list), optional `marks`, optional `content`. -/
inductive JSONContent where
  | mk (type : Option String) (attrs : Option (List String))
       (marks : Option (List MarkRef)) (content : Option (List JSONContent))

def JSONContent.type : JSONContent → Option String
  | .mk t _ _ _ => t

def JSONContent.attrs : JSONContent → Option (List String)
  | .mk _ a _ _ => a

def JSONContent.marks : JSONContent → Option (List MarkRef)
  | .mk _ _ m _ => m

def JSONContent.content : JSONContent → Option (List JSONContent)
  | .mk _ _ _ c => c

/-- A schema, as consumed by this engine: the key sets of `schema.nodes` and
`schema.marks` (`Object.keys` yields duplicate-free lists). -/
structure Schema where
  nodes : List String
  marks : List String
deriving DecidableEq, Repr

/-- The kind tag of an invalid content block: `'mark' | 'node'`. -/
inductive BlockType where
  | mark
  | node
deriving DecidableEq, Repr

/-- `unknownContentBlock` from `src/unnamed/part_000`. -/
structure unknownContentBlock where
  type : BlockType
  name : String
  attributes : List String
  path : List String
  invalidParentNode : Bool
  invalidParentMark : Bool
deriving DecidableEq, Repr

/-- `typeof mark === 'string' ? mark : mark.type` -/
def markName : MarkRef → String
  | .str n => n
  | .obj t _ => t

/-- `Object.keys(mark.attrs || {})` (a bare string mark has no `attrs`). -/
def markAttrKeys : MarkRef → List String
  | .str _ => []
  | .obj _ a => a.getD []

/-- One iteration of the mark-scanning loop of `checkForUnknownContent`
(`Object.entries(marks).forEach`): an invalid mark is `unshift`ed onto the
accumulator and sets the running `invalidParentMark` flag. -/
def marksStep (validMarks : List String) (path : List String)
    (invalidParentNode : Bool)
    (acc : List unknownContentBlock × Bool) (im : Nat × MarkRef) :
    List unknownContentBlock × Bool :=
  let name := markName im.2
  if validMarks.contains name then acc
  else
    ({ name := name
       attributes := markAttrKeys im.2
       path := path ++ ["marks", toString im.1]
       type := .mark
       invalidParentMark := acc.2
       invalidParentNode := invalidParentNode } :: acc.1,
     true)

mutual

/-- Embedding of `checkForUnknownContent` from `src/unnamed/part_000`
(lines 55-128). The source mutates one accumulator: it pushes the reversed
invalid-mark entries, then the node's own entry when
`type && !validNodes.has(type)`, then `unshift`s each child's recursive
result while iterating the children forward; the result is therefore
children-part (reverse sibling order) ++ marks-part ++ node-part. -/
def checkForUnknownContent (validMarks validNodes : List String) :
    JSONContent → List String → Bool → Bool → List unknownContentBlock
  | .mk type attrs marks content, path, invalidParentNode, invalidParentMark =>
    let marksRes : List unknownContentBlock × Bool :=
      match marks with
      | none => ([], invalidParentMark)
      | some ms =>
        ms.enum.foldl (marksStep validMarks path invalidParentNode)
          ([], invalidParentMark)
    let nodeRes : List unknownContentBlock × Bool :=
      match type with
      | none => ([], invalidParentNode)
      | some t =>
        if t ≠ "" ∧ ¬ validNodes.contains t then
          ([{ name := t
              attributes := attrs.getD []
              type := .node
              path := path
              invalidParentMark := marksRes.2
              invalidParentNode := invalidParentNode }],
           true)
        else ([], invalidParentNode)
    let contentRes : List unknownContentBlock :=
      match content with
      | none => []
      | some cs => checkContentList validMarks validNodes cs 0 path nodeRes.2 marksRes.2
    contentRes ++ marksRes.1 ++ nodeRes.1
termination_by structural j => j

/-- The children loop of `checkForUnknownContent`
(`Object.entries(content).forEach` with `unshift`): children are visited in
declaration order, index `i` onward, and each child's result is prepended to
the accumulated list, so the later sibling's entries end up in front. -/
def checkContentList (validMarks validNodes : List String) :
    List JSONContent → Nat → List String → Bool → Bool →
    List unknownContentBlock
  | [], _, _, _, _ => []
  | c :: rest, i, path, invalidParentNode, invalidParentMark =>
    checkContentList validMarks validNodes rest (i + 1) path invalidParentNode
      invalidParentMark ++
    checkForUnknownContent validMarks validNodes c
      (path ++ ["content", toString i]) invalidParentNode invalidParentMark
termination_by structural l => l

end

/-- The input of `getUnknownContent`: `JSONContent | JSONContent[]`. -/
inductive JsonDoc where
  | single (j : JSONContent)
  | multi (l : List JSONContent)

/-- `getUnknownContent` from `src/unnamed/part_000` (lines 130-146):
`([] as JSONContent[]).concat(jsonContent)` normalizes the input to an
array and each element is checked with path prefix `[idx]` in the array
case and `[]` in the single case. -/
def getUnknownContent (schema : Schema) (jsonContent : JsonDoc) :
    List unknownContentBlock :=
  let validMarks := schema.marks
  let validNodes := schema.nodes
  match jsonContent with
  | .single j => checkForUnknownContent validMarks validNodes j [] false false
  | .multi l =>
    (l.enum.map fun ij =>
      checkForUnknownContent validMarks validNodes ij.2 [toString ij.1]
        false false).flatten

/-! Embedding of `src/packages/core/src/helpers/createNodeFromContent.ts`. -/

/-- `InvalidContentBlock` from `createNodeFromContent.ts` (no `attributes`
field). `name` is `Option String`: the node branch copies `type!` without a
truthiness guard, so a node lacking a `type` produces an entry whose name is
the JS `undefined`. -/
structure InvalidContentBlock where
  type : BlockType
  name : Option String
  path : List String
  invalidParentNode : Bool
  invalidParentMark : Bool
deriving DecidableEq, Repr

/-- One iteration of the mark-scanning loop of `checkForInvalidContent`
(`for (const [index, mark] of marks.entries())`). -/
def coreMarksStep (validMarks : List String) (path : List String)
    (invalidParentNode : Bool)
    (acc : List InvalidContentBlock × Bool) (im : Nat × MarkRef) :
    List InvalidContentBlock × Bool :=
  let name := markName im.2
  if validMarks.contains name then acc
  else
    ({ name := some name
       path := path ++ ["marks", toString im.1]
       type := .mark
       invalidParentMark := acc.2
       invalidParentNode := invalidParentNode } :: acc.1,
     true)

mutual

/-- Embedding of `checkForInvalidContent` from `createNodeFromContent.ts`
(lines 117-185). Identical traversal to `checkForUnknownContent` except that
entries carry no `attributes` and the node check `!validNodes.has(type!)`
has no truthiness guard on `type` (`has(undefined)` is `false` on a set of
strings, so a missing type always produces an entry). -/
def checkForInvalidContent (validMarks validNodes : List String) :
    JSONContent → List String → Bool → Bool → List InvalidContentBlock
  | .mk type _attrs marks content, path, invalidParentNode, invalidParentMark =>
    let marksRes : List InvalidContentBlock × Bool :=
      match marks with
      | none => ([], invalidParentMark)
      | some ms =>
        ms.enum.foldl (coreMarksStep validMarks path invalidParentNode)
          ([], invalidParentMark)
    let nodeRes : List InvalidContentBlock × Bool :=
      if (match type with
          | some t => validNodes.contains t
          | none => false) then
        ([], invalidParentNode)
      else
        ([{ name := type
            type := .node
            path := path
            invalidParentMark := marksRes.2
            invalidParentNode := invalidParentNode }],
         true)
    let contentRes : List InvalidContentBlock :=
      match content with
      | none => []
      | some cs =>
        checkForInvalidContentList validMarks validNodes cs 0 path nodeRes.2
          marksRes.2
    contentRes ++ marksRes.1 ++ nodeRes.1
termination_by structural j => j

/-- The children loop of `checkForInvalidContent` (forward iteration with
`unshift`, putting later siblings' results in front). -/
def checkForInvalidContentList (validMarks validNodes : List String) :
    List JSONContent → Nat → List String → Bool → Bool →
    List InvalidContentBlock
  | [], _, _, _, _ => []
  | c :: rest, i, path, invalidParentNode, invalidParentMark =>
    checkForInvalidContentList validMarks validNodes rest (i + 1) path
      invalidParentNode invalidParentMark ++
    checkForInvalidContent validMarks validNodes c
      (path ++ ["content", toString i]) invalidParentNode invalidParentMark
termination_by structural l => l

end

/-- A structured error from the external tree-node constructor
(`schema.nodeFromJSON`), as caught by the recovery pipeline. -/
structure PMError where
  message : String
deriving DecidableEq, Repr

/-- An abstract handle to an external ProseMirror node. -/
structure PMNode where
  id : Nat
deriving DecidableEq, Repr

/-- An external ProseMirror fragment; `Fragment.fromArray` wraps a node
list. -/
structure Fragment where
  nodes : List PMNode
deriving DecidableEq, Repr

/-- External `ParseOptions` (opaque to this engine; passed through to the
parser). -/
structure ParseOptions
deriving DecidableEq, Repr

/-- The `Content` input type: `string | JSONContent | JSONContent[] | null`.
`.null` stands for the JS falsy non-string inputs (`null`/`undefined`). -/
inductive Content where
  | null
  | str (s : String)
  | node (j : JSONContent)
  | arr (l : List JSONContent)

/-- The JS property accesses `json.type` / `json.attrs` / `json.marks` /
`json.content` performed by `checkForInvalidContent` when `getInvalidContent`
receives an array (`JSONContent[]`): they all yield `undefined`. -/
def jsonDocFields : JsonDoc → JSONContent
  | .single j => j
  | .multi _ => .mk none none none none

/-- The value `getInvalidContent` assembles for the error handler:
`\x7b json, invalidContent, transformers, error \x7d` (the `transformers`
record is the static one below). -/
structure InvalidContentDetails where
  json : JsonDoc
  invalidContent : List InvalidContentBlock
  error : PMError

/-- `getInvalidContent` from `createNodeFromContent.ts` (lines 190-204),
instantiated at the only call site's `Extra = \x7b error \x7d`. -/
def getInvalidContent (schema : Schema) (json : JsonDoc) (error : PMError) :
    InvalidContentDetails :=
  { json := json
    invalidContent :=
      checkForInvalidContent schema.marks schema.nodes (jsonDocFields json)
        [] false false
    error := error }

namespace transformers

/-- `transformers.remove` from `createNodeFromContent.ts` (lines 86-100):
`newJSON` starts as the input, the loop skips blocks with
`invalidParentNode` and the removal itself is commented out
(`// TODO this is not implemented`), so nothing is ever changed. -/
def remove (json : JSONContent)
    (invalidContent : List InvalidContentBlock) : JSONContent :=
  invalidContent.foldl
    (fun newJSON block => if block.invalidParentNode then newJSON else newJSON)
    json

end transformers

/-- `CreateNodeFromContentOptions`: optional `slice` and `parseOptions`. -/
structure CreateNodeFromContentOptions where
  slice : Option Bool
  parseOptions : Option ParseOptions

/-- The defaulting spread `\x7b slice: true, parseOptions: \x7b\x7d, ...options \x7d`
performed at the top of `createNodeFromContent`. -/
def mergeOptions (options : CreateNodeFromContentOptions) :
    CreateNodeFromContentOptions :=
  { slice := some (options.slice.getD true)
    parseOptions := some (options.parseOptions.getD {}) }

/-- The external ProseMirror capabilities consumed by the pipeline, modelled
as total functions; the throwing `schema.nodeFromJSON` returns `Except`.
`parseSliceContent schema s po` stands for
`DOMParser.fromSchema(schema).parseSlice(elementFromString(s), po).content`
and `parseDoc` for the corresponding `.parse` call; per the spec the DOM
parser itself never throws on malformed markup. -/
structure PMEnv where
  nodeFromJSON : Schema → JsonDoc → Except PMError PMNode
  parseSliceContent : Schema → String → ParseOptions → Fragment
  parseDoc : Schema → String → ParseOptions → PMNode

/-- The result type `ProseMirrorNode | Fragment`. -/
inductive NodeOrFragment where
  | node (n : PMNode)
  | fragment (f : Fragment)
deriving DecidableEq, Repr

/-- The body of the `try` block of `createNodeFromContent` (lines 242-250):
a non-empty array is built element-wise into a fragment
(`Fragment.fromArray(content.map(item => schema.nodeFromJSON(item)))`, the
JS `map` aborting at the first thrown element); otherwise the content value
itself (a single object, or the empty array) is passed to
`schema.nodeFromJSON`. -/
def buildFromJSON (env : PMEnv) (schema : Schema) :
    JsonDoc → Except PMError NodeOrFragment
  | .single j => (env.nodeFromJSON schema (.single j)).map .node
  | .multi l =>
    if 0 < l.length then
      (l.mapM fun item => env.nodeFromJSON schema (.single item)).map
        fun ns => .fragment ⟨ns⟩
    else
      (env.nodeFromJSON schema (.multi l)).map .node

/-- Ranking used only for termination: every recursive call of
`createNodeFromContent` passes the string `''`. -/
def contentRank : Content → Nat
  | .str _ => 0
  | _ => 1

/-- Embedding of `createNodeFromContent` (lines 227-274). The second
component of the result models the diagnostics the `catch` block computes
and logs (`getInvalidContent(\x7b schema, error, json: content \x7d)`); the first
component is the returned node/fragment. On a JSON build failure the
function logs those diagnostics and returns the result of re-invoking
itself with `''` against the same schema and the merged options. -/
def createNodeFromContent (env : PMEnv) (content : Content) (schema : Schema)
    (options : CreateNodeFromContentOptions) :
    NodeOrFragment × Option InvalidContentDetails :=
  let opts := mergeOptions options
  match content with
  | .node j =>
    match buildFromJSON env schema (.single j) with
    | .ok r => (r, none)
    | .error e =>
      ((createNodeFromContent env (.str "") schema opts).1,
       some (getInvalidContent schema (.single j) e))
  | .arr l =>
    match buildFromJSON env schema (.multi l) with
    | .ok r => (r, none)
    | .error e =>
      ((createNodeFromContent env (.str "") schema opts).1,
       some (getInvalidContent schema (.multi l) e))
  | .str s =>
    if opts.slice.getD true then
      (.fragment (env.parseSliceContent schema s (opts.parseOptions.getD {})),
       none)
    else
      (.node (env.parseDoc schema s (opts.parseOptions.getD {})), none)
  | .null => createNodeFromContent env (.str "") schema opts
termination_by contentRank content
decreasing_by all_goals simp [contentRank]

/-- The `Content` value a `JsonDoc` came from. -/
def jsonDocContent : JsonDoc → Content
  | .single j => .node j
  | .multi l => .arr l

/-! Embedding of the placeholder synthesizer and the entry points of
`src/unnamed/part_000`. -/

/-- An extension descriptor. Caller extensions and the descriptors created
by `Node.create` / `Mark.create` in `generatePlaceholderNodeExtensions` are
modelled by the data the engine reads or sets: the kind of `create` used,
the `name`, the declared attribute names (the keys produced by
`addAttributes`), and the `group` / `content` configuration. The runtime
hooks (`parseHTML`, `renderHTML`, the per-attribute `parseHTML`) close over
exactly this data and are not otherwise observed. -/
structure Extension where
  kind : BlockType
  name : String
  attributes : List String
  group : Option String
  content : Option String
deriving DecidableEq, Repr

/-- One observation fed to the synthesizer:
`\x7b type: node|mark, tagName, attributes \x7d`. -/
structure PlaceholderObservation where
  type : BlockType
  tagName : String
  attributes : List String
deriving DecidableEq, Repr

/-- `PlaceholderExtensionOptions`: the optional fallback renderer is a
runtime hook, modelled opaquely. -/
structure PlaceholderExtensionOptions where
  fallback : Option Unit
deriving DecidableEq, Repr

/-- An element harvested by the HTML unknown-element probe, as consumed by
`createPlaceholderExtensions`: its `tagName` and `getAttributeNames()`. -/
structure HTMLElementCapture where
  tagName : String
  attributeNames : List String
deriving DecidableEq, Repr

/-- Insertion into a JS `Set` (insertion-ordered, first occurrence wins). -/
def jsSetInsert (acc : List String) (s : String) : List String :=
  if s ∈ acc then acc else acc ++ [s]

/-- `new Set([...l])` for a list of strings: first-occurrence
deduplication in insertion order. -/
def jsSetOf (l : List String) : List String :=
  l.foldl jsSetInsert []

/-- The per-tag record stored in the synthesizer's accumulator object:
`\x7b node: createdExtension, attributes: Set \x7d`. -/
structure PlaceholderEntry where
  node : Extension
  attributes : List String
deriving DecidableEq, Repr

/-- JS object property read `m[k]` on a string-keyed object modelled as an
insertion-ordered association list. -/
def jsObjectGet : List (String × PlaceholderEntry) → String →
    Option PlaceholderEntry
  | [], _ => none
  | p :: rest, k => if p.1 = k then some p.2 else jsObjectGet rest k

/-- JS object property write `m[k] = v`: updating an existing string key
keeps its position, a new key is appended (JS property insertion order). -/
def jsObjectSet : List (String × PlaceholderEntry) → String →
    PlaceholderEntry → List (String × PlaceholderEntry)
  | [], k, v => [(k, v)]
  | p :: rest, k, v =>
    if p.1 = k then (k, v) :: rest else p :: jsObjectSet rest k v

/-- One step of the `reduce` inside `generatePlaceholderNodeExtensions`
(lines 198-243): the attribute names already recorded under `tagName` are
unioned with the observation's
(`new Set([...(extensionMap[tagName]?.attributes || []), ...seenAttributes])`)
and the entry under `tagName` is overwritten with a freshly created
extension over the union. The key is the `tagName` alone. -/
def placeholderStep (extensionMap : List (String × PlaceholderEntry))
    (obs : PlaceholderObservation) : List (String × PlaceholderEntry) :=
  let attributes :=
    jsSetOf ((((jsObjectGet extensionMap obs.tagName).map
      (·.attributes)).getD []) ++ obs.attributes)
  jsObjectSet extensionMap obs.tagName
    { node :=
        { kind := obs.type
          name := obs.tagName
          attributes := attributes
          group := match obs.type with | .mark => none | .node => some "block"
          content :=
            match obs.type with | .mark => none | .node => some "inline*" }
      attributes := attributes }

/-- `generatePlaceholderNodeExtensions` from `src/unnamed/part_000`
(lines 193-246): reduce the observations into a tagName-keyed object, then
`Object.values(...).map((\x7b node \x7d) => node)`. The `options` argument only
feeds the opaque `renderHTML` hook of the created extensions. -/
def generatePlaceholderNodeExtensions
    (elements : List PlaceholderObservation)
    (_options : PlaceholderExtensionOptions) : List Extension :=
  let generatedExtensions := elements.foldl placeholderStep []
  generatedExtensions.map (·.2.node)

/-- The external capabilities consumed by `isContentInvalid` and
`createPlaceholderExtensions`:
* `getUnknownHTMLElements` models the HTML unknown-element probe of
  `src/unnamed/part_000` (lines 152-187), whose behaviour is entirely
  driven by external machinery (`ExtensionManager.resolve`, schema
  derivation, `createDocument`'s DOM parse and the side-effecting catch-all
  `getAttrs`); it returns the capture list.
* `resolveSchema` models
  `getSchemaByResolvedExtensions(ExtensionManager.resolve(extensions))`. -/
structure TiptapEnv where
  getUnknownHTMLElements : String → List Extension → List HTMLElementCapture
  resolveSchema : List Extension → Schema

/-- `isContentInvalid` from `src/unnamed/part_000` (lines 248-267):
falsy content (`null`/`undefined`/`''`) is immediately not invalid; string
content asks the HTML probe; JSON content asks `getUnknownContent` against
the schema resolved from the extensions. -/
def isContentInvalid (env : TiptapEnv) (content : Content)
    (extensions : List Extension) : Bool :=
  match content with
  | .null => false
  | .str s =>
    if s = "" then false
    else (env.getUnknownHTMLElements s extensions).length != 0
  | .node j =>
    (getUnknownContent (env.resolveSchema extensions) (.single j)).length != 0
  | .arr l =>
    (getUnknownContent (env.resolveSchema extensions) (.multi l)).length != 0

/-- `createPlaceholderExtensions` from `src/unnamed/part_000`
(lines 269-315). Falsy content returns the extensions unchanged. For string
content with unknown elements, the collaboration extension is filtered out
and the synthesized extensions are appended. For JSON content with unknown
content, the synthesized extensions are appended to the unfiltered list. -/
def createPlaceholderExtensions (env : TiptapEnv) (content : Content)
    (extensions : List Extension) (options : PlaceholderExtensionOptions) :
    List Extension :=
  match content with
  | .null => extensions
  | .str s =>
    if s = "" then extensions
    else
      let unknownHTMLElements := env.getUnknownHTMLElements s extensions
      if unknownHTMLElements.length = 0 then extensions
      else
        let generatedExtensions := generatePlaceholderNodeExtensions
          (unknownHTMLElements.map fun node =>
            { type := .node
              tagName := node.tagName.toLower
              attributes := node.attributeNames })
          options
        (extensions.filter fun extension =>
          extension.name != "collaboration") ++ generatedExtensions
  | .node j =>
    let schema := env.resolveSchema extensions
    let unknownContent := getUnknownContent schema (.single j)
    if unknownContent.length = 0 then extensions
    else
      extensions ++ generatePlaceholderNodeExtensions
        (unknownContent.map fun b =>
          { type := b.type, tagName := b.name, attributes := b.attributes })
        options
  | .arr l =>
    let schema := env.resolveSchema extensions
    let unknownContent := getUnknownContent schema (.multi l)
    if unknownContent.length = 0 then extensions
    else
      extensions ++ generatePlaceholderNodeExtensions
        (unknownContent.map fun b =>
          { type := b.type, tagName := b.name, attributes := b.attributes })
        options

/-- Specification-side description of the attribute set the synthesizer
accumulates for tag `k`: the union (first-occurrence order, duplicate-free)
of the attribute lists of every observation whose tag is `k`. -/
def tagAttrsSpec (pre : List PlaceholderObservation) (k : String) :
    List String :=
  jsSetOf ((pre.filter fun o => o.tagName == k).flatMap (·.attributes))

/-- Specification-side declaration-order scan of one node's mark list
(per §4.1 step 1 of the spec): invalid marks are listed in declaration
order, each carrying the `invalidParentMark` flag in force when it is
encountered; every invalid mark after the first carries `true`. The
validator is compared against the reverse of this list. -/
def specMarkScan (validMarks : List String) (path : List String)
    (invalidParentNode : Bool) :
    List (Nat × MarkRef) → Bool → List unknownContentBlock
  | [], _ => []
  | x :: rest, invalidParentMark =>
    if validMarks.contains (markName x.2) then
      specMarkScan validMarks path invalidParentNode rest invalidParentMark
    else
      { name := markName x.2
        attributes := markAttrKeys x.2
        path := path ++ ["marks", toString x.1]
        type := .mark
        invalidParentMark := invalidParentMark
        invalidParentNode := invalidParentNode } ::
      specMarkScan validMarks path invalidParentNode rest true

/-- The `invalidParentMark` flag left in force after scanning a mark
list. -/
def specMarkFlag (validMarks : List String) :
    List (Nat × MarkRef) → Bool → Bool
  | [], invalidParentMark => invalidParentMark
  | x :: rest, invalidParentMark =>
    if validMarks.contains (markName x.2) then
      specMarkFlag validMarks rest invalidParentMark
    else specMarkFlag validMarks rest true

/-- The mark-entry section of one node's report (empty when the node has no
`marks` property). -/
def specMarksPart (validMarks : List String) (path : List String)
    (invalidParentNode : Bool) (marks : Option (List MarkRef))
    (invalidParentMark : Bool) : List unknownContentBlock :=
  match marks with
  | none => []
  | some ms =>
    (specMarkScan validMarks path invalidParentNode ms.enum
      invalidParentMark).reverse

/-- The `invalidParentMark` flag after the marks phase of one node. -/
def specMarksFlag (validMarks : List String) (marks : Option (List MarkRef))
    (invalidParentMark : Bool) : Bool :=
  match marks with
  | none => invalidParentMark
  | some ms => specMarkFlag validMarks ms.enum invalidParentMark

/-- The node-entry section of one node's report: a single entry when
`type && !validNodes.has(type)`. -/
def specNodeEntry (validNodes : List String) (type : Option String)
    (attrs : Option (List String)) (path : List String)
    (invalidParentNode invalidParentMark : Bool) :
    List unknownContentBlock :=
  match type with
  | none => []
  | some t =>
    if t ≠ "" ∧ ¬ validNodes.contains t then
      [{ name := t
         attributes := attrs.getD []
         type := .node
         path := path
         invalidParentMark := invalidParentMark
         invalidParentNode := invalidParentNode }]
    else []

/-- The `invalidParentNode` flag after the node phase of one node. -/
def specNodeFlag (validNodes : List String) (type : Option String)
    (invalidParentNode : Bool) : Bool :=
  match type with
  | none => invalidParentNode
  | some t =>
    if t ≠ "" ∧ ¬ validNodes.contains t then true else invalidParentNode

/-- The children section of one node's report: each child checked with the
extended path and the flags left by the marks and node phases, the
per-child reports concatenated in reverse sibling order. -/
def specContentPart (validMarks validNodes : List String)
    (content : Option (List JSONContent)) (path : List String)
    (invalidParentNode invalidParentMark : Bool) :
    List unknownContentBlock :=
  match content with
  | none => []
  | some cs =>
    ((cs.enum.map fun ic =>
      checkForUnknownContent validMarks validNodes ic.2
        (path ++ ["content", toString ic.1]) invalidParentNode
        invalidParentMark).reverse).flatten

mutual

/-- Every node type name and every mark type name occurring in the tree is
present in the respective valid-name set (the hypothesis of claim C7). -/
def allTypesKnown (validMarks validNodes : List String) : JSONContent → Bool
  | .mk type _ marks content =>
    (match type with
     | none => true
     | some t => validNodes.contains t) &&
    ((marks.getD []).all fun m => validMarks.contains (markName m)) &&
    (match content with
     | none => true
     | some cs => allTypesKnownList validMarks validNodes cs)
termination_by structural j => j

/-- `allTypesKnown` over a list of sibling trees. -/
def allTypesKnownList (validMarks validNodes : List String) :
    List JSONContent → Bool
  | [] => true
  | c :: rest =>
    allTypesKnown validMarks validNodes c &&
    allTypesKnownList validMarks validNodes rest
termination_by structural l => l

end

/-- `allTypesKnown` for either input shape of `getUnknownContent`. -/
def allTypesKnownDoc (validMarks validNodes : List String) : JsonDoc → Bool
  | .single j => allTypesKnown validMarks validNodes j
  | .multi l => allTypesKnownList validMarks validNodes l

/-- Numeric value of a decimal digit character; a left inverse of
`Nat.digitChar` on digits, used to show that the stringified array indices
in paths (`toString i`) are injective. -/
def charVal (c : Char) : Nat := c.toNat - 48

/-- Decimal value of a digit string, folding left from accumulator `a`. -/
def digitsValFrom (a : Nat) (l : List Char) : Nat :=
  l.foldl (fun acc c => 10 * acc + charVal c) a

/-- Some other entry of the sequence is of node kind and this entry's path
descends through its `content`: the formal meaning of "lies inside an
invalid ancestor node". -/
def hasInvalidNodeAncestor (l : List unknownContentBlock)
    (e : unknownContentBlock) : Prop :=
  ∃ e' ∈ l, e'.type = .node ∧ e'.path ++ ["content"] <+: e.path

end Tiptap

namespace Tiptap

/-- Claim C2: on the JSON document
`\x7btype: doc, content: [\x7btype: paragraph, marks: [\x7btype: bogusMark\x7d],
content: [\x7btype: bogusNode\x7d]\x7d]\x7d` checked against a schema whose node
names are exactly `doc`, `paragraph`, `text` and whose mark names do not
include `bogusMark`, `getUnknownContent` returns exactly two entries: first
the node entry `bogusNode` at path `[content, 0, content, 0]`, then the mark
entry `bogusMark` at path `[content, 0, marks, 0]` with
`invalidParentNode = false`. -/
theorem getUnknownContent_example :
    getUnknownContent { nodes := ["doc", "paragraph", "text"], marks := [] }
      (.single (.mk (some "doc") none none (some
        [.mk (some "paragraph") none (some [.obj "bogusMark" none])
          (some [.mk (some "bogusNode") none none none])]))) =
    [{ type := .node, name := "bogusNode", attributes := []
       path := ["content", "0", "content", "0"]
       invalidParentNode := false, invalidParentMark := true },
     { type := .mark, name := "bogusMark", attributes := []
       path := ["content", "0", "marks", "0"]
       invalidParentNode := false, invalidParentMark := false }] := by
  decide

/-- Claim C1: `createNodeFromContent` never throws (its embedding is a total
function into `NodeOrFragment × Option InvalidContentDetails`, every
throwing capability being confined to the `Except`-valued
`env.nodeFromJSON` and handled); and whenever building from JSON fails —
for a single object or for an array, so in particular for an object lacking
a `type` or an array mixing a valid and an invalid node, whenever the
schema rejects them — the call computes the invalid-content report
`getInvalidContent` for that JSON against the schema and returns the result
of re-invoking itself with empty content `''` against the same schema. -/
theorem createNodeFromContent_never_throws_and_recovers (env : PMEnv)
    (schema : Schema) (options : CreateNodeFromContentOptions) (d : JsonDoc)
    (e : PMError) (h : buildFromJSON env schema d = .error e) :
    createNodeFromContent env (jsonDocContent d) schema options =
      ((createNodeFromContent env (.str "") schema (mergeOptions options)).1,
       some (getInvalidContent schema d e)) := by
  cases d <;> simp [createNodeFromContent, jsonDocContent, h]

/-- Witness for claim C1 at a concrete environment whose `nodeFromJSON`
rejects everything, a JSON object lacking a `type`, and the default
options. -/
theorem createNodeFromContent_never_throws_and_recovers_witness :
    buildFromJSON
        { nodeFromJSON := fun _ _ => .error { message := "rejected" }
          parseSliceContent := fun _ _ _ => { nodes := [] }
          parseDoc := fun _ _ _ => { id := 0 } }
        { nodes := ["doc"], marks := [] }
        (.single (.mk none none none none)) = .error { message := "rejected" } ∧
    createNodeFromContent
        { nodeFromJSON := fun _ _ => .error { message := "rejected" }
          parseSliceContent := fun _ _ _ => { nodes := [] }
          parseDoc := fun _ _ _ => { id := 0 } }
        (jsonDocContent (.single (.mk none none none none)))
        { nodes := ["doc"], marks := [] }
        { slice := none, parseOptions := none } =
      ((createNodeFromContent
          { nodeFromJSON := fun _ _ => .error { message := "rejected" }
            parseSliceContent := fun _ _ _ => { nodes := [] }
            parseDoc := fun _ _ _ => { id := 0 } }
          (.str "") { nodes := ["doc"], marks := [] }
          (mergeOptions { slice := none, parseOptions := none })).1,
       some (getInvalidContent { nodes := ["doc"], marks := [] }
          (.single (.mk none none none none)) { message := "rejected" })) :=
  ⟨rfl,
   createNodeFromContent_never_throws_and_recovers _ _ _ _ _ rfl⟩

/-- Claim C8: `transformers.remove` is a no-op — for every json value and
every invalid-content list it returns the input json unchanged (the removal
is commented out in the source). -/
theorem transformers_remove_is_noop (json : JSONContent)
    (invalidContent : List InvalidContentBlock) :
    transformers.remove json invalidContent = json := by
  unfold transformers.remove
  induction invalidContent with
  | nil => rfl
  | cons b rest ih => rw [List.foldl_cons, ite_self]; exact ih

/-- Claim C9: for string (HTML) content with unknown elements, the result of
`createPlaceholderExtensions` is the caller's list with every extension
named `collaboration` removed (all others kept in their original order,
which is what `List.filter` produces) and the synthesized extensions
appended; for JSON content (object or array) the caller's list is a prefix
of the result — no extension is removed. -/
theorem createPlaceholderExtensions_collaboration (env : TiptapEnv)
    (extensions : List Extension) (options : PlaceholderExtensionOptions) :
    (∀ s, s ≠ "" → env.getUnknownHTMLElements s extensions ≠ [] →
      createPlaceholderExtensions env (.str s) extensions options =
        (extensions.filter fun extension =>
          extension.name != "collaboration") ++
        generatePlaceholderNodeExtensions
          ((env.getUnknownHTMLElements s extensions).map fun node =>
            { type := .node
              tagName := node.tagName.toLower
              attributes := node.attributeNames })
          options) ∧
    (∀ j, extensions <+:
      createPlaceholderExtensions env (.node j) extensions options) ∧
    (∀ l, extensions <+:
      createPlaceholderExtensions env (.arr l) extensions options) := by
  refine ⟨fun s hs hne => ?_, fun j => ?_, fun l => ?_⟩
  · simp only [createPlaceholderExtensions, if_neg hs]
    rw [if_neg (fun h => hne (List.length_eq_zero.mp h))]
  · simp only [createPlaceholderExtensions]
    split
    · exact List.prefix_refl _
    · exact List.prefix_append _ _
  · simp only [createPlaceholderExtensions]
    split
    · exact List.prefix_refl _
    · exact List.prefix_append _ _

/-- Witness for claim C9 at a concrete probe that reports one
`custom-widget` element, a caller list containing a `collaboration`
extension, and concrete JSON inputs. -/
theorem createPlaceholderExtensions_collaboration_witness :
    ("<custom-widget></custom-widget>" ≠ "" ∧
      TiptapEnv.getUnknownHTMLElements
        { getUnknownHTMLElements := fun _ _ =>
            [{ tagName := "CUSTOM-WIDGET", attributeNames := ["data-id"] }]
          resolveSchema := fun _ => { nodes := ["doc"], marks := [] } }
        "<custom-widget></custom-widget>"
        [{ kind := .node, name := "collaboration", attributes := []
           group := none, content := none },
         { kind := .mark, name := "bold", attributes := []
           group := none, content := none }] ≠ []) ∧
    createPlaceholderExtensions
      { getUnknownHTMLElements := fun _ _ =>
          [{ tagName := "CUSTOM-WIDGET", attributeNames := ["data-id"] }]
        resolveSchema := fun _ => { nodes := ["doc"], marks := [] } }
      (.str "<custom-widget></custom-widget>")
      [{ kind := .node, name := "collaboration", attributes := []
         group := none, content := none },
       { kind := .mark, name := "bold", attributes := []
         group := none, content := none }]
      { fallback := none } =
    ([{ kind := .node, name := "collaboration", attributes := []
        group := none, content := none },
      { kind := .mark, name := "bold", attributes := []
        group := none, content := none }].filter fun extension =>
          extension.name != "collaboration") ++
    generatePlaceholderNodeExtensions
      ([{ tagName := "CUSTOM-WIDGET",
          attributeNames := ["data-id"] }].map
            fun node : HTMLElementCapture =>
              { type := .node
                tagName := node.tagName.toLower
                attributes := node.attributeNames })
      { fallback := none } :=
  ⟨⟨by decide, by decide⟩,
   (createPlaceholderExtensions_collaboration _ _ _).1
     "<custom-widget></custom-widget>" (by decide) (by decide)⟩

/-- Claim C10: for every falsy content value (`null`/`undefined`, modelled
by `.null`, and the empty string) and every environment — hence without
consulting the schema or the probe — `isContentInvalid` returns `false` and
`createPlaceholderExtensions` returns the caller's extension list
unchanged. -/
theorem falsy_content_is_not_invalid (env : TiptapEnv)
    (extensions : List Extension) (options : PlaceholderExtensionOptions) :
    isContentInvalid env .null extensions = false ∧
    isContentInvalid env (.str "") extensions = false ∧
    createPlaceholderExtensions env .null extensions options = extensions ∧
    createPlaceholderExtensions env (.str "") extensions options =
      extensions := by
  refine ⟨rfl, ?_, rfl, ?_⟩ <;>
    simp [isContentInvalid, createPlaceholderExtensions]

/-- Counterexample to claim C4: two observations that lie in distinct
`(kind, tagName)` groups — a mark observation and a node observation of the
same tag `x` — produce a single descriptor, not one per group; the mark
observation's attribute set is merged into the node descriptor and the
`kind` of the sole descriptor is that of the last observation. The grouping
key is the tag name alone. -/
theorem generatePlaceholderNodeExtensions_merges_kinds :
    generatePlaceholderNodeExtensions
      [{ type := .mark, tagName := "x", attributes := ["a"] },
       { type := .node, tagName := "x", attributes := ["b"] }]
      { fallback := none } =
      [{ kind := .node, name := "x", attributes := ["a", "b"]
         group := some "block", content := some "inline*" }] ∧
    (generatePlaceholderNodeExtensions
      [{ type := .mark, tagName := "x", attributes := ["a"] },
       { type := .node, tagName := "x", attributes := ["b"] }]
      { fallback := none }).length ≠ 2 := by
  decide

theorem jsSetInsert_of_mem {acc : List String} {s : String} (h : s ∈ acc) :
    jsSetInsert acc s = acc := by
  unfold jsSetInsert
  rw [if_pos h]

theorem jsSetInsert_of_not_mem {acc : List String} {s : String}
    (h : s ∉ acc) : jsSetInsert acc s = acc ++ [s] := by
  unfold jsSetInsert
  rw [if_neg h]

theorem mem_foldl_jsSetInsert :
    ∀ (l acc : List String) (x : String),
    x ∈ l.foldl jsSetInsert acc ↔ x ∈ acc ∨ x ∈ l
  | [], acc, x => by simp
  | hd :: t, acc, x => by
    rw [List.foldl_cons]
    by_cases hmem : hd ∈ acc
    · rw [jsSetInsert_of_mem hmem, mem_foldl_jsSetInsert]
      simp only [List.mem_cons]
      constructor
      · rintro (h | h)
        · exact Or.inl h
        · exact Or.inr (Or.inr h)
      · rintro (h | h | h)
        · exact Or.inl h
        · exact Or.inl (h ▸ hmem)
        · exact Or.inr h
    · rw [jsSetInsert_of_not_mem hmem, mem_foldl_jsSetInsert]
      simp only [List.mem_append, List.mem_singleton, List.mem_cons]
      tauto

theorem mem_jsSetOf (l : List String) (x : String) :
    x ∈ jsSetOf l ↔ x ∈ l := by
  unfold jsSetOf
  rw [mem_foldl_jsSetInsert]
  simp

theorem nodup_foldl_jsSetInsert :
    ∀ (l acc : List String), acc.Nodup → (l.foldl jsSetInsert acc).Nodup
  | [], _, h => h
  | hd :: t, acc, h => by
    rw [List.foldl_cons]
    by_cases hmem : hd ∈ acc
    · rw [jsSetInsert_of_mem hmem]
      exact nodup_foldl_jsSetInsert t acc h
    · rw [jsSetInsert_of_not_mem hmem]
      refine nodup_foldl_jsSetInsert t _ ?_
      simp [List.nodup_append, h, hmem]

theorem nodup_jsSetOf (l : List String) : (jsSetOf l).Nodup :=
  nodup_foldl_jsSetInsert l [] List.nodup_nil

theorem foldl_jsSetInsert_of_nodup :
    ∀ (l acc : List String), l.Nodup → (∀ x ∈ l, x ∉ acc) →
    l.foldl jsSetInsert acc = acc ++ l
  | [], acc, _, _ => by simp
  | hd :: t, acc, hnd, hdisj => by
    rw [List.foldl_cons]
    rw [jsSetInsert_of_not_mem (hdisj hd (List.mem_cons_self hd t))]
    rw [foldl_jsSetInsert_of_nodup t (acc ++ [hd]) (List.Nodup.of_cons hnd)
      ?_]
    · simp
    · intro x hx
      simp only [List.mem_append, List.mem_singleton]
      rintro (h | h)
      · exact hdisj x (List.mem_cons_of_mem _ hx) h
      · exact (List.nodup_cons.mp hnd).1 (h ▸ hx)

theorem jsSetOf_jsSetOf_append (a b : List String) :
    jsSetOf (jsSetOf a ++ b) = jsSetOf (a ++ b) := by
  unfold jsSetOf
  rw [List.foldl_append, List.foldl_append]
  congr 1
  have h1 : (jsSetOf a).foldl jsSetInsert [] = [] ++ jsSetOf a :=
    foldl_jsSetInsert_of_nodup _ _ (nodup_jsSetOf a) (by simp)
  simpa [jsSetOf] using h1

theorem jsObjectSet_keys (k : String) (v : PlaceholderEntry) :
    ∀ m : List (String × PlaceholderEntry),
    (jsObjectSet m k v).map (·.1) =
      if k ∈ m.map (·.1) then m.map (·.1) else m.map (·.1) ++ [k]
  | [] => by simp [jsObjectSet]
  | p :: rest => by
    unfold jsObjectSet
    by_cases hpk : p.1 = k
    · rw [if_pos hpk]
      simp [hpk]
    · rw [if_neg hpk]
      have hne : ¬ k = p.1 := fun h => hpk h.symm
      simp only [List.map_cons, List.mem_cons, hne, false_or]
      rw [jsObjectSet_keys k v rest]
      split <;> simp

theorem jsObjectSet_mem (k : String) (v : PlaceholderEntry) :
    ∀ (m : List (String × PlaceholderEntry)) (p : String × PlaceholderEntry),
    (m.map (·.1)).Nodup → p ∈ jsObjectSet m k v →
    p = (k, v) ∨ (p ∈ m ∧ p.1 ≠ k)
  | [], p, _, h => by
    simp only [jsObjectSet, List.mem_singleton] at h
    exact Or.inl h
  | q :: rest, p, hnd, h => by
    unfold jsObjectSet at h
    have hqnot : q.1 ∉ rest.map (·.1) :=
      (List.nodup_cons.mp (by simpa using hnd)).1
    have hnd' : (rest.map (·.1)).Nodup :=
      (List.nodup_cons.mp (by simpa using hnd)).2
    by_cases hqk : q.1 = k
    · rw [if_pos hqk] at h
      rcases List.mem_cons.mp h with h | h
      · exact Or.inl h
      · refine Or.inr ⟨List.mem_cons_of_mem _ h, fun hpk => ?_⟩
        have hp1 : p.1 ∈ rest.map (·.1) := List.mem_map_of_mem (·.1) h
        rw [hpk, ← hqk] at hp1
        exact hqnot hp1
    · rw [if_neg hqk] at h
      rcases List.mem_cons.mp h with h | h
      · exact Or.inr ⟨h ▸ List.mem_cons_self q rest, h ▸ hqk⟩
      · rcases jsObjectSet_mem k v rest p hnd' h with h' | h'
        · exact Or.inl h'
        · exact Or.inr ⟨List.mem_cons_of_mem _ h'.1, h'.2⟩

theorem jsObjectGet_some_mem (k : String) (e : PlaceholderEntry) :
    ∀ m : List (String × PlaceholderEntry),
    jsObjectGet m k = some e → (k, e) ∈ m
  | [], h => by simp [jsObjectGet] at h
  | p :: rest, h => by
    unfold jsObjectGet at h
    by_cases hpk : p.1 = k
    · rw [if_pos hpk] at h
      have : p = (k, e) := by
        cases p
        simp_all
      exact this ▸ List.mem_cons_self p rest
    · rw [if_neg hpk] at h
      exact List.mem_cons_of_mem _ (jsObjectGet_some_mem k e rest h)

theorem jsObjectGet_none_not_mem (k : String) :
    ∀ m : List (String × PlaceholderEntry),
    jsObjectGet m k = none → k ∉ m.map (·.1)
  | [], _ => by simp
  | p :: rest, h => by
    unfold jsObjectGet at h
    by_cases hpk : p.1 = k
    · rw [if_pos hpk] at h
      exact absurd h (by simp)
    · rw [if_neg hpk] at h
      simp only [List.map_cons, List.mem_cons]
      rintro (hk | hk)
      · exact hpk hk.symm
      · exact jsObjectGet_none_not_mem k rest h hk

theorem placeholderStep_invariant (pre : List PlaceholderObservation)
    (m : List (String × PlaceholderEntry)) (o : PlaceholderObservation)
    (hK : m.map (·.1) = jsSetOf (pre.map (·.tagName)))
    (hA : ∀ p ∈ m, p.2.node.name = p.1 ∧
      p.2.attributes = tagAttrsSpec pre p.1 ∧
      p.2.node.attributes = p.2.attributes) :
    ((placeholderStep m o).map (·.1) =
      jsSetOf ((pre ++ [o]).map (·.tagName))) ∧
    (∀ p ∈ placeholderStep m o, p.2.node.name = p.1 ∧
      p.2.attributes = tagAttrsSpec (pre ++ [o]) p.1 ∧
      p.2.node.attributes = p.2.attributes) := by
  have hnd : (m.map (·.1)).Nodup := hK ▸ nodup_jsSetOf _
  have hsetRHS : jsSetOf ((pre ++ [o]).map (·.tagName)) =
      jsSetInsert (jsSetOf (pre.map (·.tagName))) o.tagName := by
    unfold jsSetOf
    rw [List.map_append, List.foldl_append]
    rfl
  constructor
  · simp only [placeholderStep]
    rw [jsObjectSet_keys, hsetRHS, hK]
    unfold jsSetInsert
    rfl
  · intro p hp
    simp only [placeholderStep] at hp
    rcases jsObjectSet_mem _ _ m p hnd hp with hpv | ⟨hpm, hpk⟩
    · subst hpv
      refine ⟨rfl, ?_, rfl⟩
      show jsSetOf ((((jsObjectGet m o.tagName).map
          (·.attributes)).getD []) ++ o.attributes) =
        tagAttrsSpec (pre ++ [o]) o.tagName
      have hfilterO :
          ([o].filter fun x => x.tagName == o.tagName) = [o] := by
        simp
      unfold tagAttrsSpec
      rw [List.filter_append, hfilterO, List.flatMap_append]
      simp only [List.flatMap_cons, List.flatMap_nil, List.append_nil]
      cases hget : jsObjectGet m o.tagName with
      | some e =>
        have hmem := jsObjectGet_some_mem _ _ m hget
        have he := (hA _ hmem).2.1
        simp only at he
        have hgetd : (Option.map (fun x : PlaceholderEntry => x.attributes)
            (some e)).getD [] = e.attributes := rfl
        rw [hgetd, he]
        unfold tagAttrsSpec
        exact jsSetOf_jsSetOf_append _ _
      | none =>
        have hnot := jsObjectGet_none_not_mem _ m hget
        rw [hK, mem_jsSetOf] at hnot
        have hfilterPre :
            (pre.filter fun x => x.tagName == o.tagName) = [] := by
          rw [List.filter_eq_nil_iff]
          intro a ha
          simp only [beq_iff_eq]
          intro hc
          exact hnot (hc ▸ List.mem_map_of_mem (·.tagName) ha)
        have hgetd : (Option.map (fun x : PlaceholderEntry => x.attributes)
            (none : Option PlaceholderEntry)).getD [] = [] := rfl
        rw [hgetd, hfilterPre]
        simp
    · obtain ⟨h1, h2, h3⟩ := hA p hpm
      refine ⟨h1, ?_, h3⟩
      rw [h2]
      unfold tagAttrsSpec
      rw [List.filter_append]
      have : ([o].filter fun x => x.tagName == p.1) = [] := by
        simp only [List.filter_eq_nil_iff, List.mem_singleton, beq_iff_eq]
        rintro a rfl
        exact fun hc => hpk hc.symm
      rw [this, List.append_nil]

theorem placeholder_foldl_invariant :
    ∀ (elements pre : List PlaceholderObservation)
      (m : List (String × PlaceholderEntry)),
    m.map (·.1) = jsSetOf (pre.map (·.tagName)) →
    (∀ p ∈ m, p.2.node.name = p.1 ∧
      p.2.attributes = tagAttrsSpec pre p.1 ∧
      p.2.node.attributes = p.2.attributes) →
    ((elements.foldl placeholderStep m).map (·.1) =
      jsSetOf ((pre ++ elements).map (·.tagName))) ∧
    (∀ p ∈ elements.foldl placeholderStep m, p.2.node.name = p.1 ∧
      p.2.attributes = tagAttrsSpec (pre ++ elements) p.1 ∧
      p.2.node.attributes = p.2.attributes)
  | [], pre, m, hK, hA => by
    simp only [List.foldl_nil, List.append_nil]
    exact ⟨hK, hA⟩
  | o :: rest, pre, m, hK, hA => by
    rw [List.foldl_cons]
    have hstep := placeholderStep_invariant pre m o hK hA
    have hrec := placeholder_foldl_invariant rest (pre ++ [o])
      (placeholderStep m o) hstep.1 hstep.2
    have heq : (pre ++ [o]) ++ rest = pre ++ o :: rest := by simp
    rw [heq] at hrec
    exact hrec

/-- Amendment of claim C4: `generatePlaceholderNodeExtensions` groups
observations by `tagName` alone — one descriptor per distinct tag name, in
first-occurrence order and with no duplicates — and each descriptor's
attribute-name set is the union of the attribute sets of every observation
with that tag name (regardless of kind), accumulated by union, never by
replacement. -/
theorem generatePlaceholderNodeExtensions_groups_by_tagName
    (elements : List PlaceholderObservation)
    (options : PlaceholderExtensionOptions) :
    ((generatePlaceholderNodeExtensions elements options).map (·.name) =
      jsSetOf (elements.map (·.tagName))) ∧
    ((generatePlaceholderNodeExtensions elements options).map
      (·.name)).Nodup ∧
    ∀ ext ∈ generatePlaceholderNodeExtensions elements options, ∀ a,
      (a ∈ ext.attributes ↔
        ∃ o ∈ elements, o.tagName = ext.name ∧ a ∈ o.attributes) := by
  obtain ⟨hK, hA⟩ := placeholder_foldl_invariant elements [] [] rfl
    (by intro p hp; cases hp)
  rw [List.nil_append] at hK hA
  have hnames : (generatePlaceholderNodeExtensions elements options).map
      (·.name) = jsSetOf (elements.map (·.tagName)) := by
    unfold generatePlaceholderNodeExtensions
    rw [List.map_map]
    calc (elements.foldl placeholderStep []).map (fun p => p.2.node.name)
        = (elements.foldl placeholderStep []).map (·.1) :=
          List.map_congr_left fun p hp => (hA p hp).1
      _ = jsSetOf (elements.map (·.tagName)) := hK
  refine ⟨hnames, hnames ▸ nodup_jsSetOf _, ?_⟩
  intro ext hext a
  unfold generatePlaceholderNodeExtensions at hext
  obtain ⟨p, hp, hpe⟩ := List.mem_map.mp hext
  obtain ⟨hname, hattrs, hnode⟩ := hA p hp
  rw [← hpe, hnode, hattrs, hname]
  unfold tagAttrsSpec
  rw [mem_jsSetOf, List.mem_flatMap]
  constructor
  · rintro ⟨o, ho, hao⟩
    have := List.mem_filter.mp ho
    exact ⟨o, this.1, by simpa using this.2, hao⟩
  · rintro ⟨o, ho, hto, hao⟩
    exact ⟨o, List.mem_filter.mpr ⟨ho, by simpa using hto⟩, hao⟩

/-- Witness for the amendment of claim C4 at three concrete observations of
the tag `x` with differing attribute sets. -/
theorem generatePlaceholderNodeExtensions_groups_by_tagName_witness :
    (Extension.mk .node "x" ["a", "b"] (some "block") (some "inline*")) ∈
      generatePlaceholderNodeExtensions
        [PlaceholderObservation.mk .node "x" ["a"],
         PlaceholderObservation.mk .node "x" ["a", "b"]]
        ({ fallback := none } : PlaceholderExtensionOptions) ∧
    ("b" ∈ (Extension.mk .node "x" ["a", "b"] (some "block")
        (some "inline*")).attributes ↔
      ∃ o ∈ [PlaceholderObservation.mk .node "x" ["a"],
          PlaceholderObservation.mk .node "x" ["a", "b"]],
        o.tagName = (Extension.mk .node "x" ["a", "b"] (some "block")
          (some "inline*")).name ∧ "b" ∈ o.attributes) :=
  ⟨by decide,
   (generatePlaceholderNodeExtensions_groups_by_tagName
     [PlaceholderObservation.mk .node "x" ["a"],
      PlaceholderObservation.mk .node "x" ["a", "b"]]
     { fallback := none }).2.2
     (Extension.mk .node "x" ["a", "b"] (some "block") (some "inline*"))
     (by decide) "b"⟩

theorem marksStep_of_valid {validMarks path : List String}
    {invalidParentNode : Bool} {s : List unknownContentBlock × Bool}
    {x : Nat × MarkRef} (hx : validMarks.contains (markName x.2) = true) :
    marksStep validMarks path invalidParentNode s x = s := by
  unfold marksStep
  rw [if_pos hx]

theorem marksStep_of_invalid {validMarks path : List String}
    {invalidParentNode : Bool} {s : List unknownContentBlock × Bool}
    {x : Nat × MarkRef} (hx : validMarks.contains (markName x.2) = false) :
    marksStep validMarks path invalidParentNode s x =
      ({ name := markName x.2
         attributes := markAttrKeys x.2
         path := path ++ ["marks", toString x.1]
         type := .mark
         invalidParentMark := s.2
         invalidParentNode := invalidParentNode } :: s.1,
       true) := by
  unfold marksStep
  rw [if_neg (by simp only [hx]; decide)]

theorem foldl_marksStep_eq (validMarks path : List String)
    (invalidParentNode : Bool) :
    ∀ (l : List (Nat × MarkRef)) (acc : List unknownContentBlock)
      (ipm : Bool),
    l.foldl (marksStep validMarks path invalidParentNode) (acc, ipm) =
      ((specMarkScan validMarks path invalidParentNode l ipm).reverse ++ acc,
       specMarkFlag validMarks l ipm)
  | [], acc, ipm => by simp [specMarkScan, specMarkFlag]
  | x :: rest, acc, ipm => by
    rw [List.foldl_cons]
    by_cases hx : validMarks.contains (markName x.2) = true
    · rw [marksStep_of_valid hx,
        foldl_marksStep_eq validMarks path invalidParentNode rest acc ipm]
      simp only [specMarkScan, specMarkFlag, if_pos hx]
    · have hx' : validMarks.contains (markName x.2) = false := by
        simpa using hx
      rw [marksStep_of_invalid hx',
        foldl_marksStep_eq validMarks path invalidParentNode rest _ true]
      simp only [specMarkScan, specMarkFlag, if_neg hx]
      simp [List.append_assoc]

theorem checkContentList_eq (validMarks validNodes : List String) :
    ∀ (cs : List JSONContent) (i : Nat) (path : List String) (ipn ipm : Bool),
    checkContentList validMarks validNodes cs i path ipn ipm =
      ((cs.enumFrom i).map fun ic =>
        checkForUnknownContent validMarks validNodes ic.2
          (path ++ ["content", toString ic.1]) ipn ipm).reverse.flatten
  | [], i, path, ipn, ipm => by simp [checkContentList]
  | c :: rest, i, path, ipn, ipm => by
    simp only [checkContentList, List.enumFrom_cons, List.map_cons,
      List.reverse_cons, List.flatten_append, List.flatten_cons,
      List.flatten_nil, List.append_nil]
    rw [checkContentList_eq validMarks validNodes rest (i + 1) path ipn ipm]

/-- The defining decomposition of one `checkForUnknownContent` call: the
children section (reverse sibling order), then the mark section (reverse
declaration order), then the node's own entry. -/
theorem checkForUnknownContent_eq (validMarks validNodes : List String)
    (type : Option String) (attrs : Option (List String))
    (marks : Option (List MarkRef)) (content : Option (List JSONContent))
    (path : List String) (ipn ipm : Bool) :
    checkForUnknownContent validMarks validNodes
        (.mk type attrs marks content) path ipn ipm =
      specContentPart validMarks validNodes content path
        (specNodeFlag validNodes type ipn)
        (specMarksFlag validMarks marks ipm) ++
      specMarksPart validMarks path ipn marks ipm ++
      specNodeEntry validNodes type attrs path ipn
        (specMarksFlag validMarks marks ipm) := by
  cases marks with
  | none =>
    cases type with
    | none =>
      cases content with
      | none =>
        simp [checkForUnknownContent, specContentPart, specMarksPart,
          specMarksFlag, specNodeEntry, specNodeFlag]
      | some cs =>
        simp only [checkForUnknownContent]
        rw [checkContentList_eq]
        simp [specContentPart, specMarksPart, specMarksFlag, specNodeEntry,
          specNodeFlag, List.enum_eq_enumFrom]
    | some t =>
      cases content with
      | none =>
        simp only [checkForUnknownContent]
        by_cases ht : t = "" <;> by_cases hv : t ∈ validNodes <;>
          simp [specContentPart, specMarksPart, specMarksFlag, specNodeEntry,
            specNodeFlag, ht, hv]
      | some cs =>
        simp only [checkForUnknownContent]
        rw [checkContentList_eq]
        by_cases ht : t = "" <;> by_cases hv : t ∈ validNodes <;>
          simp [specContentPart, specMarksPart, specMarksFlag, specNodeEntry,
            specNodeFlag, List.enum_eq_enumFrom, ht, hv]
  | some ms =>
    have hfold := foldl_marksStep_eq validMarks path ipn ms.enum [] ipm
    cases type with
    | none =>
      cases content with
      | none =>
        simp only [checkForUnknownContent]
        rw [hfold]
        simp [specContentPart, specMarksPart, specMarksFlag, specNodeEntry,
          specNodeFlag]
      | some cs =>
        simp only [checkForUnknownContent]
        rw [hfold, checkContentList_eq]
        simp [specContentPart, specMarksPart, specMarksFlag, specNodeEntry,
          specNodeFlag, List.enum_eq_enumFrom]
    | some t =>
      cases content with
      | none =>
        simp only [checkForUnknownContent]
        rw [hfold]
        by_cases ht : t = "" <;> by_cases hv : t ∈ validNodes <;>
          simp [specContentPart, specMarksPart, specMarksFlag, specNodeEntry,
            specNodeFlag, ht, hv]
      | some cs =>
        simp only [checkForUnknownContent]
        rw [hfold, checkContentList_eq]
        by_cases ht : t = "" <;> by_cases hv : t ∈ validNodes <;>
          simp [specContentPart, specMarksPart, specMarksFlag, specNodeEntry,
            specNodeFlag, List.enum_eq_enumFrom, ht, hv]

/-- Claim C5: for every node (in particular every node with invalid marks
and invalid descendant subtrees), the combined report is the children's
reports in reverse sibling order, all of them preceding the node's own mark
entries, which in turn precede the node's own type entry (present exactly
when the type is invalid, `specNodeEntry`). -/
theorem checkForUnknownContent_report_order (validMarks validNodes :
    List String) (type : Option String) (attrs : Option (List String))
    (marks : Option (List MarkRef)) (cs : List JSONContent)
    (path : List String) (ipn ipm : Bool) :
    checkForUnknownContent validMarks validNodes
        (.mk type attrs marks (some cs)) path ipn ipm =
      ((cs.enum.map fun ic =>
        checkForUnknownContent validMarks validNodes ic.2
          (path ++ ["content", toString ic.1])
          (specNodeFlag validNodes type ipn)
          (specMarksFlag validMarks marks ipm)).reverse).flatten ++
      specMarksPart validMarks path ipn marks ipm ++
      specNodeEntry validNodes type attrs path ipn
        (specMarksFlag validMarks marks ipm) := by
  rw [checkForUnknownContent_eq]
  rfl

theorem specMarkScan_all_true (validMarks path : List String)
    (ipn : Bool) :
    ∀ l, ∀ b ∈ specMarkScan validMarks path ipn l true,
      b.invalidParentMark = true
  | [], b, hb => by simp [specMarkScan] at hb
  | x :: rest, b, hb => by
    simp only [specMarkScan] at hb
    split at hb
    · exact specMarkScan_all_true validMarks path ipn rest b hb
    · rcases List.mem_cons.mp hb with rfl | hb'
      · rfl
      · exact specMarkScan_all_true validMarks path ipn rest b hb'

theorem specMarkScan_flags (validMarks path : List String) (ipn : Bool) :
    ∀ l,
    (∀ b ∈ (specMarkScan validMarks path ipn l false).drop 1,
      b.invalidParentMark = true) ∧
    (∀ b ∈ (specMarkScan validMarks path ipn l false).take 1,
      b.invalidParentMark = false)
  | [] => by simp [specMarkScan]
  | x :: rest => by
    simp only [specMarkScan]
    split
    · exact specMarkScan_flags validMarks path ipn rest
    · constructor
      · intro b hb
        simp only [List.drop_succ_cons, List.drop_zero] at hb
        exact specMarkScan_all_true validMarks path ipn rest b hb
      · intro b hb
        simp only [List.take_succ_cons, List.take_zero,
          List.mem_singleton] at hb
        subst hb
        rfl

/-- Counterexample to claim C6: a node carrying two invalid marks `m1`,
`m2` (in that declaration order) and not itself under an invalid mark.
The emitted entries are `m2` then `m1`, and the entry after the first —
`m1`, the first in declaration order — carries
`invalidParentMark = false`, contradicting "each entry after the first
carries `invalidParentMark = true`". -/
theorem checkForUnknownContent_mark_flag_counterexample :
    ((checkForUnknownContent [] []
        (.mk none none (some [.obj "m1" none, .obj "m2" none]) none)
        [] false false).map fun b => (b.name, b.invalidParentMark)) =
      [("m2", true), ("m1", false)] ∧
    ¬ ∀ b ∈ (checkForUnknownContent [] []
        (.mk none none (some [.obj "m1" none, .obj "m2" none]) none)
        [] false false).drop 1, b.invalidParentMark = true := by
  decide

/-- Amendment of claim C6: within one node's mark list the validator emits
invalid-mark entries in reverse declaration order (the emitted list is the
reverse of the declaration-order scan `specMarkScan`); when the node is not
already under an invalid mark, every invalid mark after the first in
declaration order — equivalently, every emitted entry except the last —
carries `invalidParentMark = true`, while the first in declaration order
(the last emitted) carries `invalidParentMark = false`. -/
theorem checkForUnknownContent_marks_reverse_order
    (validMarks validNodes : List String) (ms : List MarkRef)
    (path : List String) (ipn : Bool) :
    (checkForUnknownContent validMarks validNodes
        (.mk none none (some ms) none) path ipn false =
      (specMarkScan validMarks path ipn ms.enum false).reverse) ∧
    (∀ b ∈ (specMarkScan validMarks path ipn ms.enum false).drop 1,
      b.invalidParentMark = true) ∧
    (∀ b ∈ (specMarkScan validMarks path ipn ms.enum false).take 1,
      b.invalidParentMark = false) := by
  refine ⟨?_, (specMarkScan_flags validMarks path ipn ms.enum).1,
    (specMarkScan_flags validMarks path ipn ms.enum).2⟩
  rw [checkForUnknownContent_eq]
  simp [specContentPart, specNodeEntry, specMarksPart]

/-- Witness for the amendment of claim C6 at a node with two invalid
marks. -/
theorem checkForUnknownContent_marks_reverse_order_witness :
    (checkForUnknownContent [] []
        (.mk none none (some [.obj "m1" none, .obj "m2" none]) none)
        [] false false =
      (specMarkScan [] [] false
        ([MarkRef.obj "m1" none, MarkRef.obj "m2" none].enum)
        false).reverse) ∧
    ({ type := .mark, name := "m2", attributes := []
       path := ["marks", "1"], invalidParentNode := false
       invalidParentMark := true } : unknownContentBlock) ∈
      (specMarkScan [] [] false
        ([MarkRef.obj "m1" none, MarkRef.obj "m2" none].enum)
        false).drop 1 ∧
    ({ type := .mark, name := "m2", attributes := []
       path := ["marks", "1"], invalidParentNode := false
       invalidParentMark := true } : unknownContentBlock).invalidParentMark =
      true :=
  ⟨(checkForUnknownContent_marks_reverse_order [] []
      [MarkRef.obj "m1" none, MarkRef.obj "m2" none] [] false).1,
   by decide,
   (checkForUnknownContent_marks_reverse_order [] []
      [MarkRef.obj "m1" none, MarkRef.obj "m2" none] [] false).2.1 _
     (by decide)⟩

theorem specMarkScan_eq_nil_of_valid (validMarks path : List String)
    (ipn : Bool) :
    ∀ (l : List (Nat × MarkRef)) (b : Bool),
    (∀ x ∈ l, validMarks.contains (markName x.2) = true) →
    specMarkScan validMarks path ipn l b = []
  | [], _, _ => rfl
  | x :: rest, b, h => by
    simp only [specMarkScan, if_pos (h x (List.mem_cons_self x rest))]
    exact specMarkScan_eq_nil_of_valid validMarks path ipn rest b
      fun y hy => h y (List.mem_cons_of_mem _ hy)

theorem allTypesKnown_parts (validMarks validNodes : List String)
    (type : Option String) (attrs : Option (List String))
    (marks : Option (List MarkRef)) (content : Option (List JSONContent))
    (h : allTypesKnown validMarks validNodes
      (.mk type attrs marks content) = true) :
    (∀ t, type = some t → validNodes.contains t = true) ∧
    (∀ ms, marks = some ms →
      (ms.all fun m => validMarks.contains (markName m)) = true) ∧
    (∀ cs, content = some cs →
      allTypesKnownList validMarks validNodes cs = true) := by
  rw [allTypesKnown.eq_def] at h
  rw [Bool.and_eq_true, Bool.and_eq_true] at h
  refine ⟨fun t ht => ?_, fun ms hms => ?_, fun cs hcs => ?_⟩
  · subst ht; exact h.1.1
  · subst hms; exact h.1.2
  · subst hcs; exact h.2

mutual

theorem checkForUnknownContent_of_allTypesKnown
    (validMarks validNodes : List String) :
    ∀ (j : JSONContent) (path : List String) (ipn ipm : Bool),
    allTypesKnown validMarks validNodes j = true →
    checkForUnknownContent validMarks validNodes j path ipn ipm = []
  | .mk type attrs marks content, path, ipn, ipm, h => by
    obtain ⟨htype, hmarks, hcontent⟩ :=
      allTypesKnown_parts validMarks validNodes type attrs marks content h
    rw [checkForUnknownContent_eq]
    have h1 : specMarksPart validMarks path ipn marks ipm = [] := by
      cases marks with
      | none => rfl
      | some ms =>
        have h0 : (ms.all fun m => validMarks.contains (markName m)) =
            true := hmarks ms rfl
        simp only [specMarksPart]
        rw [specMarkScan_eq_nil_of_valid validMarks path ipn ms.enum ipm ?_]
        · rfl
        · intro x hx
          exact List.all_eq_true.mp h0 x.2 (List.snd_mem_of_mem_enumFrom hx)
    have h2 : specNodeEntry validNodes type attrs path ipn
        (specMarksFlag validMarks marks ipm) = [] := by
      cases type with
      | none => rfl
      | some t =>
        simp only [specNodeEntry]
        rw [if_neg]
        rintro ⟨-, hc⟩
        exact hc (htype t rfl)
    have h3 : specContentPart validMarks validNodes content path
        (specNodeFlag validNodes type ipn)
        (specMarksFlag validMarks marks ipm) = [] := by
      cases content with
      | none => rfl
      | some cs =>
        simp only [specContentPart]
        rw [List.enum_eq_enumFrom, ← checkContentList_eq]
        exact checkContentList_of_allTypesKnown validMarks validNodes cs 0
          path _ _ (hcontent cs rfl)
    rw [h1, h2, h3]
    rfl
termination_by structural j => j

theorem checkContentList_of_allTypesKnown
    (validMarks validNodes : List String) :
    ∀ (cs : List JSONContent) (i : Nat) (path : List String) (ipn ipm : Bool),
    allTypesKnownList validMarks validNodes cs = true →
    checkContentList validMarks validNodes cs i path ipn ipm = []
  | [], _, _, _, _, _ => rfl
  | c :: rest, i, path, ipn, ipm, h => by
    simp only [allTypesKnownList, Bool.and_eq_true] at h
    obtain ⟨h1, h2⟩ := h
    simp only [checkContentList]
    rw [checkContentList_of_allTypesKnown validMarks validNodes rest (i + 1)
        path ipn ipm h2,
      checkForUnknownContent_of_allTypesKnown validMarks validNodes c _ ipn
        ipm h1]
    rfl
termination_by structural cs => cs

end

theorem allTypesKnownList_forall (validMarks validNodes : List String) :
    ∀ (l : List JSONContent),
    allTypesKnownList validMarks validNodes l = true →
    ∀ c ∈ l, allTypesKnown validMarks validNodes c = true
  | [], _, c, hc => absurd hc (List.not_mem_nil c)
  | j :: rest, h, c, hc => by
    simp only [allTypesKnownList, Bool.and_eq_true] at h
    rcases List.mem_cons.mp hc with rfl | hc'
    · exact h.1
    · exact allTypesKnownList_forall validMarks validNodes rest h.2 c hc'

/-- Claim C7: for every JSON tree (single node or top-level array) in which
every node type name and every mark type name is present in the schema's
valid-name sets, `getUnknownContent` returns the empty sequence. (The
embedding of `getUnknownContent` is a total function on arbitrary trees, so
it never throws, by construction.) -/
theorem getUnknownContent_empty_of_allTypesKnown (schema : Schema)
    (d : JsonDoc)
    (h : allTypesKnownDoc schema.marks schema.nodes d = true) :
    getUnknownContent schema d = [] := by
  cases d with
  | single j =>
    exact checkForUnknownContent_of_allTypesKnown schema.marks schema.nodes
      j [] false false h
  | multi l =>
    simp only [getUnknownContent]
    have hall := allTypesKnownList_forall schema.marks schema.nodes l h
    rw [List.flatten_eq_nil_iff]
    intro x hx
    obtain ⟨ij, hij, rfl⟩ := List.mem_map.mp hx
    exact checkForUnknownContent_of_allTypesKnown schema.marks schema.nodes
      ij.2 _ false false (hall ij.2 (List.snd_mem_of_mem_enumFrom hij))

/-- Witness for claim C7 at a concrete fully-known document. -/
theorem getUnknownContent_empty_of_allTypesKnown_witness :
    allTypesKnownDoc
      (Schema.mk ["doc", "paragraph", "text"] ["bold"]).marks
      (Schema.mk ["doc", "paragraph", "text"] ["bold"]).nodes
      (.single (.mk (some "doc") none none (some
        [.mk (some "paragraph") none (some [.obj "bold" none])
          (some [.mk (some "text") none none none])]))) = true ∧
    getUnknownContent (Schema.mk ["doc", "paragraph", "text"] ["bold"])
      (.single (.mk (some "doc") none none (some
        [.mk (some "paragraph") none (some [.obj "bold" none])
          (some [.mk (some "text") none none none])]))) = [] :=
  ⟨by decide,
   getUnknownContent_empty_of_allTypesKnown _ _ (by decide)⟩

theorem charVal_digitChar (d : Nat) (h : d < 10) :
    charVal (Nat.digitChar d) = d := by
  interval_cases d <;> decide

theorem digitsValFrom_toDigitsCore :
    ∀ (fuel n : Nat) (ds : List Char), n < fuel →
    digitsValFrom 0 (Nat.toDigitsCore 10 fuel n ds) = digitsValFrom n ds
  | fuel + 1, n, ds, h => by
    simp only [Nat.toDigitsCore]
    by_cases hz : n / 10 = 0
    · rw [if_pos hz]
      have hlt : n < 10 := by omega
      unfold digitsValFrom
      rw [List.foldl_cons]
      rw [charVal_digitChar _ (by omega : n % 10 < 10)]
      have : 10 * 0 + n % 10 = n := by omega
      rw [this]
    · rw [if_neg hz]
      have hlt : n / 10 < fuel := by omega
      rw [digitsValFrom_toDigitsCore fuel (n / 10)
        (Nat.digitChar (n % 10) :: ds) hlt]
      unfold digitsValFrom
      rw [List.foldl_cons]
      rw [charVal_digitChar _ (by omega : n % 10 < 10)]
      have : 10 * (n / 10) + n % 10 = n := by omega
      rw [this]

theorem toString_nat_injective {m n : Nat}
    (h : toString m = toString n) : m = n := by
  have h2 : Nat.toDigits 10 m = Nat.toDigits 10 n := by
    have h3 : (Nat.toDigits 10 m).asString = (Nat.toDigits 10 n).asString := h
    simpa [List.asString] using congrArg String.data h3
  have h4 := congrArg (digitsValFrom 0) h2
  unfold Nat.toDigits at h4
  rw [digitsValFrom_toDigitsCore (m + 1) m [] (Nat.lt_succ_self m),
    digitsValFrom_toDigitsCore (n + 1) n [] (Nat.lt_succ_self n)] at h4
  simpa [digitsValFrom] using h4

/-- Two content branches with different indices are prefix-incomparable. -/
theorem content_branch_disjoint {path : List String} {i i' : Nat}
    {r r' : List String} (hne : i ≠ i') :
    ¬ (path ++ ["content", toString i] ++ r <+:
        path ++ ["content", toString i'] ++ r') := by
  intro h
  rw [List.append_assoc, List.append_assoc,
    List.prefix_append_right_inj] at h
  simp only [List.cons_append, List.nil_append] at h
  rw [List.cons_prefix_cons] at h
  obtain ⟨-, h⟩ := h
  rw [List.cons_prefix_cons] at h
  exact hne (toString_nat_injective h.1)

theorem specMarkScan_entry_shape (validMarks path : List String)
    (ipn : Bool) :
    ∀ (l : List (Nat × MarkRef)) (b : Bool),
    ∀ e ∈ specMarkScan validMarks path ipn l b,
    e.type = .mark ∧ e.invalidParentNode = ipn ∧
      ∃ i : Nat, e.path = path ++ ["marks", toString i]
  | [], b, e, he => absurd he (List.not_mem_nil e)
  | x :: rest, b, e, he => by
    simp only [specMarkScan] at he
    split at he
    · exact specMarkScan_entry_shape validMarks path ipn rest b e he
    · rcases List.mem_cons.mp he with rfl | he'
      · exact ⟨rfl, rfl, x.1, rfl⟩
      · exact specMarkScan_entry_shape validMarks path ipn rest true e he'

theorem specMarksPart_entry_shape (validMarks path : List String)
    (ipn : Bool) (marks : Option (List MarkRef)) (ipm : Bool) :
    ∀ e ∈ specMarksPart validMarks path ipn marks ipm,
    e.type = .mark ∧ e.invalidParentNode = ipn ∧
      ∃ i : Nat, e.path = path ++ ["marks", toString i] := by
  intro e he
  cases marks with
  | none => simp [specMarksPart] at he
  | some ms =>
    simp only [specMarksPart, List.mem_reverse] at he
    exact specMarkScan_entry_shape validMarks path ipn ms.enum ipm e he

theorem specNodeEntry_shape (validNodes : List String) (t : Option String)
    (a : Option (List String)) (path : List String) (ipn ipm : Bool) :
    ∀ e ∈ specNodeEntry validNodes t a path ipn ipm,
    e.type = .node ∧ e.path = path ∧ e.invalidParentNode = ipn := by
  intro e he
  cases t with
  | none => simp [specNodeEntry] at he
  | some t' =>
    simp only [specNodeEntry] at he
    split at he
    · rw [List.mem_singleton] at he
      subst he
      exact ⟨rfl, rfl, rfl⟩
    · simp at he

/-- `specContentPart` over a present `content` list is exactly the children
loop. -/
theorem specContentPart_some (validMarks validNodes : List String)
    (cs : List JSONContent) (path : List String) (ipn ipm : Bool) :
    specContentPart validMarks validNodes (some cs) path ipn ipm =
      checkContentList validMarks validNodes cs 0 path ipn ipm := by
  simp only [specContentPart]
  rw [List.enum_eq_enumFrom, ← checkContentList_eq]

mutual

theorem checkForUnknownContent_path_prefix
    (validMarks validNodes : List String) :
    ∀ (j : JSONContent) (path : List String) (ipn ipm : Bool),
    ∀ e ∈ checkForUnknownContent validMarks validNodes j path ipn ipm,
    path <+: e.path
  | .mk t a m c, path, ipn, ipm, e, he => by
    rw [checkForUnknownContent_eq] at he
    rcases List.mem_append.mp he with he | he
    · rcases List.mem_append.mp he with he | he
      · cases c with
        | none => simp [specContentPart] at he
        | some cs =>
          rw [specContentPart_some] at he
          obtain ⟨i, -, hpre⟩ := checkContentList_path_prefix validMarks
            validNodes cs 0 path _ _ e he
          exact (List.prefix_append path ["content", toString i]).trans hpre
      · obtain ⟨-, -, i, hpath⟩ :=
          specMarksPart_entry_shape validMarks path ipn m ipm e he
        rw [hpath]
        exact List.prefix_append path ["marks", toString i]
    · obtain ⟨-, hpath, -⟩ := specNodeEntry_shape validNodes t a path ipn
        (specMarksFlag validMarks m ipm) e he
      rw [hpath]
termination_by structural j => j

theorem checkContentList_path_prefix
    (validMarks validNodes : List String) :
    ∀ (cs : List JSONContent) (i0 : Nat) (path : List String)
      (ipn ipm : Bool),
    ∀ e ∈ checkContentList validMarks validNodes cs i0 path ipn ipm,
    ∃ i, i0 ≤ i ∧ path ++ ["content", toString i] <+: e.path
  | [], _, _, _, _, e, he => absurd he (List.not_mem_nil e)
  | c :: rest, i0, path, ipn, ipm, e, he => by
    simp only [checkContentList] at he
    rcases List.mem_append.mp he with he | he
    · obtain ⟨i, hi, hpre⟩ := checkContentList_path_prefix validMarks
        validNodes rest (i0 + 1) path ipn ipm e he
      exact ⟨i, by omega, hpre⟩
    · exact ⟨i0, Nat.le_refl i0,
        checkForUnknownContent_path_prefix validMarks validNodes c
          (path ++ ["content", toString i0]) ipn ipm e he⟩
termination_by structural cs => cs

end

mutual

theorem checkForUnknownContent_ipn_iff
    (validMarks validNodes : List String) :
    ∀ (j : JSONContent) (path : List String) (ipn ipm : Bool),
    ∀ e ∈ checkForUnknownContent validMarks validNodes j path ipn ipm,
    (e.invalidParentNode = true ↔
      (ipn = true ∨ hasInvalidNodeAncestor
        (checkForUnknownContent validMarks validNodes j path ipn ipm) e))
  | .mk t a m c, path, ipn, ipm, e, he => by
    rw [checkForUnknownContent_eq] at he ⊢
    have hCPfact : ∀ e' ∈ specContentPart validMarks validNodes c path
        (specNodeFlag validNodes t ipn) (specMarksFlag validMarks m ipm),
        ∃ (i : Nat) (r : List String),
          e'.path = path ++ ["content", toString i] ++ r := by
      intro e' he'
      cases c with
      | none => simp [specContentPart] at he'
      | some cs =>
        rw [specContentPart_some] at he'
        obtain ⟨i, -, hpre⟩ := checkContentList_path_prefix validMarks
          validNodes cs 0 path _ _ e' he'
        obtain ⟨r, hr⟩ := hpre
        exact ⟨i, r, hr.symm⟩
    rcases List.mem_append.mp he with he2 | heNE
    · rcases List.mem_append.mp he2 with heCP | heMP
      · -- e lies in the children section
        cases c with
        | none => simp [specContentPart] at heCP
        | some cs =>
          rw [specContentPart_some] at heCP ⊢
          have hIH := checkContentList_ipn_iff validMarks validNodes cs 0
            path (specNodeFlag validNodes t ipn)
            (specMarksFlag validMarks m ipm) e heCP
          obtain ⟨iE, -, hpreE⟩ := checkContentList_path_prefix validMarks
            validNodes cs 0 path _ _ e heCP
          obtain ⟨rE, hrE⟩ := hpreE
          have hMPmark := specMarksPart_entry_shape validMarks path ipn m ipm
          have hnoMP : ∀ b : Bool,
              (hasInvalidNodeAncestor
                (checkContentList validMarks validNodes cs 0 path b
                  (specMarksFlag validMarks m ipm) ++
                 specMarksPart validMarks path ipn m ipm) e ↔
               hasInvalidNodeAncestor
                (checkContentList validMarks validNodes cs 0 path b
                  (specMarksFlag validMarks m ipm)) e) := by
            intro b
            constructor
            · rintro ⟨e', he', hty, hpre⟩
              rcases List.mem_append.mp he' with he' | he'
              · exact ⟨e', he', hty, hpre⟩
              · obtain ⟨hmk, -, -⟩ := hMPmark e' he'
                rw [hmk] at hty
                simp at hty
            · rintro ⟨e', he', hty, hpre⟩
              exact ⟨e', List.mem_append_left _ he', hty, hpre⟩
          cases t with
          | none =>
            rw [show specNodeFlag validNodes none ipn = ipn from rfl]
              at hIH ⊢
            rw [show specNodeEntry validNodes none a path ipn
              (specMarksFlag validMarks m ipm) = [] from rfl,
              List.append_nil]
            rw [hnoMP ipn]
            exact hIH
          | some t' =>
            by_cases hcond : t' ≠ "" ∧ ¬ validNodes.contains t'
            · have hflag : specNodeFlag validNodes (some t') ipn = true := by
                simp only [specNodeFlag]
                rw [if_pos hcond]
              rw [hflag] at hIH
              have hipn : e.invalidParentNode = true := hIH.mpr (Or.inl rfl)
              have hNEeq : specNodeEntry validNodes (some t') a path ipn
                  (specMarksFlag validMarks m ipm) =
                  [{ name := t', attributes := a.getD [], type := .node
                     path := path
                     invalidParentMark := specMarksFlag validMarks m ipm
                     invalidParentNode := ipn }] := by
                simp only [specNodeEntry]
                rw [if_pos hcond]
              have hanc : path ++ ["content"] <+: e.path := by
                rw [← hrE]
                exact ((List.prefix_append_right_inj path).mpr
                  (List.cons_prefix_cons.mpr
                    ⟨rfl, List.nil_prefix⟩)).trans
                  (List.prefix_append _ rE)
              refine iff_of_true hipn (Or.inr ?_)
              refine ⟨{ name := t', attributes := a.getD [], type := .node
                        path := path
                        invalidParentMark := specMarksFlag validMarks m ipm
                        invalidParentNode := ipn }, ?_, rfl, hanc⟩
              rw [hflag, hNEeq]
              exact List.mem_append_right _ (List.mem_singleton.mpr rfl)
            · have hflag : specNodeFlag validNodes (some t') ipn = ipn := by
                simp only [specNodeFlag]
                rw [if_neg hcond]
              have hNEeq : specNodeEntry validNodes (some t') a path ipn
                  (specMarksFlag validMarks m ipm) = [] := by
                simp only [specNodeEntry]
                rw [if_neg hcond]
              rw [hflag] at hIH ⊢
              rw [hNEeq, List.append_nil]
              rw [hnoMP ipn]
              exact hIH
      · -- e is one of this node's own mark entries
        obtain ⟨htyE, hipnE, iE, hpathE⟩ :=
          specMarksPart_entry_shape validMarks path ipn m ipm e heMP
        rw [hipnE]
        constructor
        · exact Or.inl
        · rintro (h | ⟨e', he', hty', hpre⟩)
          · exact h
          · exfalso
            rw [hpathE] at hpre
            rcases List.mem_append.mp he' with he'2 | he'NE
            · rcases List.mem_append.mp he'2 with he'CP | he'MP
              · obtain ⟨i', r', hp'⟩ := hCPfact e' he'CP
                rw [hp'] at hpre
                have hlen := hpre.length_le
                simp [List.length_append] at hlen
              · obtain ⟨hmk, -, -⟩ :=
                  specMarksPart_entry_shape validMarks path ipn m ipm e' he'MP
                rw [hmk] at hty'
                simp at hty'
            · obtain ⟨-, hp', -⟩ := specNodeEntry_shape validNodes t a path
                ipn (specMarksFlag validMarks m ipm) e' he'NE
              rw [hp'] at hpre
              rw [List.prefix_append_right_inj] at hpre
              rw [List.cons_prefix_cons] at hpre
              exact absurd hpre.1 (by decide)
    · -- e is this node's own entry
      obtain ⟨htyE, hpathE, hipnE⟩ := specNodeEntry_shape validNodes t a path
        ipn (specMarksFlag validMarks m ipm) e heNE
      rw [hipnE]
      constructor
      · exact Or.inl
      · rintro (h | ⟨e', he', hty', hpre⟩)
        · exact h
        · exfalso
          rw [hpathE] at hpre
          rcases List.mem_append.mp he' with he'2 | he'NE
          · rcases List.mem_append.mp he'2 with he'CP | he'MP
            · obtain ⟨i', r', hp'⟩ := hCPfact e' he'CP
              rw [hp'] at hpre
              have hlen := hpre.length_le
              simp [List.length_append] at hlen
            · obtain ⟨hmk, -, -⟩ :=
                specMarksPart_entry_shape validMarks path ipn m ipm e' he'MP
              rw [hmk] at hty'
              simp at hty'
          · obtain ⟨-, hp', -⟩ := specNodeEntry_shape validNodes t a path
              ipn (specMarksFlag validMarks m ipm) e' he'NE
            rw [hp'] at hpre
            have hlen := hpre.length_le
            simp [List.length_append] at hlen
termination_by structural j => j

theorem checkContentList_ipn_iff (validMarks validNodes : List String) :
    ∀ (cs : List JSONContent) (i0 : Nat) (path : List String)
      (ipn ipm : Bool),
    ∀ e ∈ checkContentList validMarks validNodes cs i0 path ipn ipm,
    (e.invalidParentNode = true ↔
      (ipn = true ∨ hasInvalidNodeAncestor
        (checkContentList validMarks validNodes cs i0 path ipn ipm) e))
  | [], _, _, _, _, e, he => absurd he (List.not_mem_nil e)
  | c :: rest, i0, path, ipn, ipm, e, he => by
    simp only [checkContentList] at he ⊢
    rcases List.mem_append.mp he with heL | heR
    · have hIH := checkContentList_ipn_iff validMarks validNodes rest
        (i0 + 1) path ipn ipm e heL
      obtain ⟨iE, hiE, hpreE⟩ := checkContentList_path_prefix validMarks
        validNodes rest (i0 + 1) path ipn ipm e heL
      obtain ⟨rE, hrE⟩ := hpreE
      have htransfer : hasInvalidNodeAncestor
          (checkContentList validMarks validNodes rest (i0 + 1) path ipn
            ipm ++
           checkForUnknownContent validMarks validNodes c
            (path ++ ["content", toString i0]) ipn ipm) e ↔
          hasInvalidNodeAncestor
            (checkContentList validMarks validNodes rest (i0 + 1) path ipn
              ipm) e := by
        constructor
        · rintro ⟨e', he', hty, hpre⟩
          rcases List.mem_append.mp he' with he' | he'
          · exact ⟨e', he', hty, hpre⟩
          · exfalso
            obtain ⟨r', hr'⟩ := checkForUnknownContent_path_prefix validMarks
              validNodes c (path ++ ["content", toString i0]) ipn ipm e' he'
            rw [← hr', ← hrE] at hpre
            refine @content_branch_disjoint path i0 iE
              (r' ++ ["content"]) rE (by omega) ?_
            simpa [List.append_assoc] using hpre
        · rintro ⟨e', he', hty, hpre⟩
          exact ⟨e', List.mem_append_left _ he', hty, hpre⟩
      rw [htransfer]
      exact hIH
    · have hIH := checkForUnknownContent_ipn_iff validMarks validNodes c
        (path ++ ["content", toString i0]) ipn ipm e heR
      obtain ⟨rE, hrE⟩ := checkForUnknownContent_path_prefix validMarks
        validNodes c (path ++ ["content", toString i0]) ipn ipm e heR
      have htransfer : hasInvalidNodeAncestor
          (checkContentList validMarks validNodes rest (i0 + 1) path ipn
            ipm ++
           checkForUnknownContent validMarks validNodes c
            (path ++ ["content", toString i0]) ipn ipm) e ↔
          hasInvalidNodeAncestor
            (checkForUnknownContent validMarks validNodes c
              (path ++ ["content", toString i0]) ipn ipm) e := by
        constructor
        · rintro ⟨e', he', hty, hpre⟩
          rcases List.mem_append.mp he' with he' | he'
          · exfalso
            obtain ⟨i', hi', hpre'⟩ := checkContentList_path_prefix validMarks
              validNodes rest (i0 + 1) path ipn ipm e' he'
            obtain ⟨r', hr'⟩ := hpre'
            rw [← hr', ← hrE] at hpre
            refine @content_branch_disjoint path i' i0
              (r' ++ ["content"]) rE (by omega) ?_
            simpa [List.append_assoc] using hpre
          · exact ⟨e', he', hty, hpre⟩
        · rintro ⟨e', he', hty, hpre⟩
          exact ⟨e', List.mem_append_right _ he', hty, hpre⟩
      rw [htransfer]
      exact hIH
termination_by structural cs => cs

end

/-- Counterexample to claim C3: on the node
`\x7btype: bogusNode, marks: [\x7btype: bogusMark\x7d]\x7d` checked against the empty
schema, the report contains the mark entry at path `[marks, 0]` — a strict
descendant of the node entry's path `[]` — yet its `invalidParentNode` is
`false`: the flag is not set for entries whose path merely extends another
entry's path (here the descent goes through `marks`, and the node's own
marks are scanned before its type). -/
theorem invalidParentNode_counterexample :
    getUnknownContent { nodes := [], marks := [] }
      (.single (.mk (some "bogusNode") none
        (some [.obj "bogusMark" none]) none)) =
      [{ type := .mark, name := "bogusMark", attributes := []
         path := ["marks", "0"], invalidParentNode := false
         invalidParentMark := false },
       { type := .node, name := "bogusNode", attributes := []
         path := [], invalidParentNode := false
         invalidParentMark := true }] ∧
    ([] : List String) <+: ["marks", "0"] ∧
    ([] : List String) ≠ ["marks", "0"] :=
  ⟨by decide, List.nil_prefix, by decide⟩

/-- Amendment of claim C3: in the sequence returned by `getUnknownContent`,
an entry has `invalidParentNode = true` if and only if some other node-kind
entry's path, extended by the segment `content`, is a prefix of its path —
that is, iff it lies inside the `content` of an entry reported as an
invalid node (a strict descendant through `content`, not through
`marks`). -/
theorem getUnknownContent_invalidParentNode_iff (schema : Schema)
    (d : JsonDoc) :
    ∀ e ∈ getUnknownContent schema d,
    (e.invalidParentNode = true ↔
      hasInvalidNodeAncestor (getUnknownContent schema d) e) := by
  intro e he
  cases d with
  | single j =>
    simp only [getUnknownContent] at he ⊢
    have h := checkForUnknownContent_ipn_iff schema.marks schema.nodes j []
      false false e he
    simpa using h
  | multi l =>
    simp only [getUnknownContent] at he ⊢
    rw [List.mem_flatten] at he
    obtain ⟨lst, hlst, helst⟩ := he
    rw [List.mem_map] at hlst
    obtain ⟨⟨k, jk⟩, hkj, rfl⟩ := hlst
    have hIH := checkForUnknownContent_ipn_iff schema.marks schema.nodes jk
      [toString k] false false e helst
    simp only [Bool.false_eq_true, false_or] at hIH
    obtain ⟨rE, hrE⟩ := checkForUnknownContent_path_prefix schema.marks
      schema.nodes jk [toString k] false false e helst
    have htransfer :
        hasInvalidNodeAncestor
          ((l.enum.map fun ij => checkForUnknownContent schema.marks
            schema.nodes ij.2 [toString ij.1] false false).flatten) e ↔
        hasInvalidNodeAncestor
          (checkForUnknownContent schema.marks schema.nodes jk [toString k]
            false false) e := by
      constructor
      · rintro ⟨e', he', hty, hpre⟩
        rw [List.mem_flatten] at he'
        obtain ⟨lst', hlst', he'lst⟩ := he'
        rw [List.mem_map] at hlst'
        obtain ⟨⟨k', jk'⟩, hkj', rfl⟩ := hlst'
        obtain ⟨r', hr'⟩ := checkForUnknownContent_path_prefix schema.marks
          schema.nodes jk' [toString k'] false false e' he'lst
        have hkk : toString k' = toString k := by
          rw [← hr', ← hrE] at hpre
          simp only [List.singleton_append, List.cons_append] at hpre
          exact (List.cons_prefix_cons.mp hpre).1
        have hk : k' = k := toString_nat_injective hkk
        subst hk
        have hjk : jk' = jk := by
          have h1 := List.mk_mem_enumFrom_iff_le_and_getElem?_sub.mp hkj
          have h2 := List.mk_mem_enumFrom_iff_le_and_getElem?_sub.mp hkj'
          exact (Option.some_inj.mp (h1.2.symm.trans h2.2)).symm
        subst hjk
        exact ⟨e', he'lst, hty, hpre⟩
      · rintro ⟨e', he', hty, hpre⟩
        refine ⟨e', ?_, hty, hpre⟩
        rw [List.mem_flatten]
        exact ⟨_, List.mem_map.mpr ⟨(k, jk), hkj, rfl⟩, he'⟩
    rw [htransfer]
    exact hIH

/-- Witness for the amendment of claim C3 at the document
`\x7btype: a, content: [\x7btype: b\x7d]\x7d` against the empty schema: the inner
entry for `b` carries `invalidParentNode = true` and indeed descends
through the content of the entry for `a`. -/
theorem getUnknownContent_invalidParentNode_iff_witness :
    ({ type := .node, name := "b", attributes := []
       path := ["content", "0"], invalidParentNode := true
       invalidParentMark := false } : unknownContentBlock) ∈
      getUnknownContent { nodes := [], marks := [] }
        (.single (.mk (some "a") none none
          (some [.mk (some "b") none none none]))) ∧
    (({ type := .node, name := "b", attributes := []
        path := ["content", "0"], invalidParentNode := true
        invalidParentMark := false } :
          unknownContentBlock).invalidParentNode = true ↔
      hasInvalidNodeAncestor
        (getUnknownContent { nodes := [], marks := [] }
          (.single (.mk (some "a") none none
            (some [.mk (some "b") none none none]))))
        { type := .node, name := "b", attributes := []
          path := ["content", "0"], invalidParentNode := true
          invalidParentMark := false }) :=
  ⟨by decide,
   getUnknownContent_invalidParentNode_iff { nodes := [], marks := [] }
     (.single (.mk (some "a") none none
       (some [.mk (some "b") none none none]))) _ (by decide)⟩

end Tiptap
